import Mathlib

/-!
Verification development for the quadrature core of the repository
(`src/chaospy/quad/collection/leja.py` and
`src/chaospy/quad/collection/gauss_radau.py`).

The numeric primitives that the source delegates to external libraries
(bounded scalar minimisation, banded linear solve, dense matrix inverse,
symmetric-tridiagonal eigendecomposition) are abstracted as parameters,
with their mathematical contracts stated as hypotheses where a theorem
needs them.  Everything else is translated directly from the source.
-/

/-! ## Leja node builder (`quad_leja`, one dimension, leja.py lines 71-92)

The 1-D branch of `quad_leja` keeps a growing Python list `abscissas`,
initialised to `[lower, dist.mom(1), upper]`.  Each of the `order`
iterations calls `fminbound(objective, abscissas[idx], abscissas[idx+1])`
on every adjacent pair, takes `numpy.argmin` of the returned objective
values and inserts the corresponding optimiser at `index + 1`.  Finally
`abscissas[1:-1]` is returned.

`fminbound` is an external bounded minimiser; the objective it receives is
determined by the distribution and by the current interior list
`abscissas[1:-1]`, so we model the composite as an abstract function
`fmin : interior → a → b → (optimum, value)`.  Node values are modelled
as rationals. -/

/-- `abscissas[1:-1]`: drop the first and the last element. -/
def interiorNodes (l : List ℚ) : List ℚ := (l.drop 1).dropLast

/-- `numpy.argmin`: index of the first occurrence of the minimum value. -/
def argminIdx : List ℚ → ℕ
  | [] => 0
  | x :: xs =>
    let j := argminIdx xs
    if xs.getD j x < x then j + 1 else 0

/-- The per-interval `fminbound` calls of one Leja iteration:
`fminbound(objective, abscissas[idx], abscissas[idx+1], full_output=1)[:2]`
for `idx in range(len(abscissas)-1)`. -/
def lejaCandidates (fmin : List ℚ → ℚ → ℚ → ℚ × ℚ) (l : List ℚ) :
    List (ℚ × ℚ) :=
  (List.range (l.length - 1)).map fun idx =>
    fmin (interiorNodes l) (l.getD idx 0) (l.getD (idx + 1) 0)

/-- One iteration of the `for _ in range(int(order))` loop:
`index = numpy.argmin(vals); abscissas.insert(index+1, opts[index])`. -/
def lejaStep (fmin : List ℚ → ℚ → ℚ → ℚ × ℚ) (l : List ℚ) : List ℚ :=
  let cands := lejaCandidates fmin l
  let index := argminIdx (cands.map Prod.snd)
  List.insertIdx (index + 1) (cands.getD index (0, 0)).1 l

/-- The internal `abscissas` list after `k` iterations, starting from
`[lower, dist.mom(1), upper]`. -/
def lejaInternal (fmin : List ℚ → ℚ → ℚ → ℚ × ℚ)
    (lower mom1 upper : ℚ) : ℕ → List ℚ
  | 0 => [lower, mom1, upper]
  | k + 1 => lejaStep fmin (lejaInternal fmin lower mom1 upper k)

/-- The nodes returned by the 1-D branch of `quad_leja`:
`abscissas = numpy.asfarray(abscissas).flatten()[1:-1]`. -/
def quad_leja_nodes (fmin : List ℚ → ℚ → ℚ → ℚ × ℚ)
    (lower mom1 upper : ℚ) (order : ℕ) : List ℚ :=
  interiorNodes (lejaInternal fmin lower mom1 upper order)

/-- Contract of the external bounded minimiser: on a nondegenerate interval
it returns an optimum strictly inside the open interval. -/
def FminInterior (fmin : List ℚ → ℚ → ℚ → ℚ × ℚ) : Prop :=
  ∀ int a b, a < b → a < (fmin int a b).1 ∧ (fmin int a b).1 < b

/-- Invariant of the internal list: strictly ascending, of the form
`lower :: mid ++ [upper]`. -/
def LejaInv (lower upper : ℚ) (l : List ℚ) : Prop :=
  l.Chain' (· < ·) ∧ ∃ mid, l = lower :: (mid ++ [upper])

theorem argminIdx_lt_length (l : List ℚ) (h : l ≠ []) : argminIdx l < l.length := by
  induction l with
  | nil => simp at h
  | cons x xs ih =>
    simp only [argminIdx]
    rcases eq_or_ne xs [] with h' | h'
    · subst h'; simp [argminIdx]
    · have := ih h'
      split
      · simp only [List.length_cons]
        omega
      · simp

theorem interiorNodes_length (l : List ℚ) :
    (interiorNodes l).length = l.length - 1 - 1 := by
  simp [interiorNodes]

theorem lejaStep_length (fmin : List ℚ → ℚ → ℚ → ℚ × ℚ) (l : List ℚ)
    (h : 2 ≤ l.length) : (lejaStep fmin l).length = l.length + 1 := by
  have hc : (lejaCandidates fmin l).length = l.length - 1 := by
    simp [lejaCandidates]
  have hmap : ((lejaCandidates fmin l).map Prod.snd).length = l.length - 1 := by
    simp [hc]
  have hne : (lejaCandidates fmin l).map Prod.snd ≠ [] := by
    intro hnil
    rw [hnil] at hmap
    simp at hmap
    omega
  have harg := argminIdx_lt_length _ hne
  rw [hmap] at harg
  have : argminIdx ((lejaCandidates fmin l).map Prod.snd) + 1 ≤ l.length := by omega
  simp only [lejaStep]
  exact List.length_insertIdx _ _ this

theorem lejaInternal_length (fmin : List ℚ → ℚ → ℚ → ℚ × ℚ)
    (lower mom1 upper : ℚ) (k : ℕ) :
    (lejaInternal fmin lower mom1 upper k).length = k + 3 := by
  induction k with
  | zero => rfl
  | succ k ih =>
    have h2 : 2 ≤ (lejaInternal fmin lower mom1 upper k).length := by omega
    simp only [lejaInternal]
    rw [lejaStep_length fmin _ h2, ih]

theorem quad_leja_nodes_length (fmin : List ℚ → ℚ → ℚ → ℚ × ℚ)
    (lower mom1 upper : ℚ) (k : ℕ) :
    (quad_leja_nodes fmin lower mom1 upper k).length = k + 1 := by
  simp [quad_leja_nodes, interiorNodes_length, lejaInternal_length]

theorem insertIdx_append_left (xs ys : List ℚ) (p : ℕ) (v : ℚ)
    (hp : p ≤ xs.length) :
    List.insertIdx p v (xs ++ ys) = List.insertIdx p v xs ++ ys := by
  induction xs generalizing p with
  | nil =>
    have : p = 0 := by simpa using hp
    subst this
    simp
  | cons a t ih =>
    cases p with
    | zero => simp
    | succ p =>
      simp only [List.cons_append, List.insertIdx_succ_cons]
      rw [ih p (by simpa using hp)]

theorem chain'_insertIdx (l : List ℚ) (p : ℕ) (v : ℚ)
    (hc : l.Chain' (· < ·)) (hp : p + 1 < l.length)
    (h1 : l.getD p 0 < v) (h2 : v < l.getD (p + 1) 0) :
    (List.insertIdx (p + 1) v l).Chain' (· < ·) := by
  induction p generalizing l with
  | zero =>
    match l, hp with
    | a :: b :: t, _ =>
      simp only [List.insertIdx_succ_cons, List.insertIdx_zero]
      simp only [List.getD_cons_zero, List.getD_cons_succ] at h1 h2
      exact List.chain'_cons.mpr ⟨h1, List.chain'_cons.mpr
        ⟨h2, (List.chain'_cons.mp hc).2⟩⟩
  | succ p ih =>
    match l, hp with
    | a :: b :: t, hp =>
      have hrec := ih (b :: t) (List.chain'_cons.mp hc).2
        (by simpa using hp)
        (by simpa using h1) (by simpa using h2)
      simp only [List.insertIdx_succ_cons] at hrec ⊢
      exact List.chain'_cons.mpr ⟨(List.chain'_cons.mp hc).1, hrec⟩

theorem chain'_getD_le (l : List ℚ) (hc : l.Chain' (· < ·))
    (i j : ℕ) (hij : i ≤ j) (hj : j < l.length) :
    l.getD i 0 ≤ l.getD j 0 := by
  have pw := (List.chain'_iff_pairwise.mp hc)
  rcases Nat.lt_or_ge i j with h | h
  · have := List.pairwise_iff_get.mp pw ⟨i, by omega⟩ ⟨j, hj⟩ h
    rw [List.getD_eq_get _ _ (by omega : i < l.length),
      List.getD_eq_get _ _ hj]
    exact le_of_lt this
  · have : i = j := by omega
    subst this
    rfl

theorem lejaStep_spec (fmin : List ℚ → ℚ → ℚ → ℚ × ℚ)
    (lower upper : ℚ) (l : List ℚ)
    (hfmin : FminInterior fmin) (hInv : LejaInv lower upper l) :
    ∃ p v, p + 1 < l.length ∧
      lejaStep fmin l = List.insertIdx (p + 1) v l ∧
      l.getD p 0 < v ∧ v < l.getD (p + 1) 0 := by
  obtain ⟨hchain, mid, hform⟩ := hInv
  have hlen : 2 ≤ l.length := by
    rw [hform]; simp
  have hclen : (lejaCandidates fmin l).length = l.length - 1 := by
    simp [lejaCandidates]
  have hne : (lejaCandidates fmin l).map Prod.snd ≠ [] := by
    intro hnil
    have := congrArg List.length hnil
    simp [hclen] at this
    omega
  have hplt := argminIdx_lt_length _ hne
  rw [List.length_map, hclen] at hplt
  set p := argminIdx ((lejaCandidates fmin l).map Prod.snd) with hpdef
  have hget : (lejaCandidates fmin l).getD p (0, 0) =
      fmin (interiorNodes l) (l.getD p 0) (l.getD (p + 1) 0) := by
    rw [List.getD_eq_getElem _ _ (by omega : p < (lejaCandidates fmin l).length)]
    simp [lejaCandidates]
  have hlt : l.getD p 0 < l.getD (p + 1) 0 := by
    have := List.chain'_iff_get.mp hchain p (by omega)
    rw [List.getD_eq_get _ _ (by omega : p < l.length),
      List.getD_eq_get _ _ (by omega : p + 1 < l.length)]
    exact this
  refine ⟨p, ((lejaCandidates fmin l).getD p (0, 0)).1, by omega, rfl, ?_, ?_⟩
  · rw [hget]
    exact (hfmin (interiorNodes l) _ _ hlt).1
  · rw [hget]
    exact (hfmin (interiorNodes l) _ _ hlt).2

theorem lejaStep_inv (fmin : List ℚ → ℚ → ℚ → ℚ × ℚ)
    (lower upper : ℚ) (l : List ℚ)
    (hfmin : FminInterior fmin) (hInv : LejaInv lower upper l) :
    LejaInv lower upper (lejaStep fmin l) := by
  obtain ⟨p, v, hp, heq, h1, h2⟩ := lejaStep_spec fmin lower upper l hfmin hInv
  obtain ⟨hchain, mid, hform⟩ := hInv
  constructor
  · rw [heq]
    exact chain'_insertIdx l p v hchain hp h1 h2
  · refine ⟨List.insertIdx p v mid, ?_⟩
    have hlenl : l.length = mid.length + 2 := by rw [hform]; simp
    rw [heq, hform, List.insertIdx_succ_cons,
      insertIdx_append_left mid [upper] p v (by omega)]

theorem lejaStep_mem (fmin : List ℚ → ℚ → ℚ → ℚ × ℚ)
    (lower upper : ℚ) (l : List ℚ)
    (hfmin : FminInterior fmin) (hInv : LejaInv lower upper l)
    (x : ℚ) (hx : x ∈ l) : x ∈ lejaStep fmin l := by
  obtain ⟨p, v, hp, heq, h1, h2⟩ := lejaStep_spec fmin lower upper l hfmin hInv
  rw [heq]
  exact (List.mem_insertIdx (by omega)).mpr (Or.inr hx)

theorem lejaInv_interior_iff (lower upper : ℚ) (l : List ℚ)
    (hInv : LejaInv lower upper l) (x : ℚ) :
    x ∈ interiorNodes l ↔ x ∈ l ∧ lower < x ∧ x < upper := by
  obtain ⟨hchain, mid, hform⟩ := hInv
  subst hform
  have pw := List.chain'_iff_pairwise.mp hchain
  have hmid : interiorNodes (lower :: (mid ++ [upper])) = mid := by
    simp [interiorNodes]
  rw [hmid]
  obtain ⟨hlow, ptail⟩ := List.pairwise_cons.mp pw
  obtain ⟨-, -, hup⟩ := List.pairwise_append.mp ptail
  constructor
  · intro hx
    refine ⟨by simp [hx], hlow x (by simp [hx]), hup x hx upper (by simp)⟩
  · rintro ⟨hx, hlx, hxu⟩
    rcases List.mem_cons.mp hx with rfl | hx'
    · exact absurd hlx (lt_irrefl _)
    · rcases List.mem_append.mp hx' with h | h
      · exact h
      · simp at h
        subst h
        exact absurd hxu (lt_irrefl _)

theorem lejaStep_new (fmin : List ℚ → ℚ → ℚ → ℚ × ℚ)
    (lower upper : ℚ) (l : List ℚ)
    (hfmin : FminInterior fmin) (hInv : LejaInv lower upper l) :
    ∃ v, v ∈ lejaStep fmin l ∧ v ∉ l ∧ lower < v ∧ v < upper := by
  obtain ⟨p, v, hp, heq, h1, h2⟩ := lejaStep_spec fmin lower upper l hfmin hInv
  obtain ⟨hchain, mid, hform⟩ := hInv
  have hlast : l.getD (l.length - 1) 0 = upper := by
    rw [hform]
    have hlen : (lower :: (mid ++ [upper])).length - 1 = mid.length + 1 := by simp
    rw [hlen, List.getD_cons_succ]
    rw [List.getD_eq_getElem _ _ (by simp)]
    simp
  have hhead : l.getD 0 0 = lower := by rw [hform]; rfl
  refine ⟨v, ?_, ?_, ?_, ?_⟩
  · rw [heq]
    exact (List.mem_insertIdx (by omega)).mpr (Or.inl rfl)
  · intro hv
    obtain ⟨⟨j, hj⟩, hjv⟩ := List.mem_iff_get.mp hv
    rcases Nat.lt_or_ge j (p + 1) with hcase | hcase
    · have hle : l.getD j 0 ≤ l.getD p 0 :=
        chain'_getD_le l hchain j p (by omega) (by omega)
      rw [List.getD_eq_get _ _ hj] at hle
      rw [hjv] at hle
      exact absurd (lt_of_le_of_lt hle h1) (lt_irrefl _)
    · have hle : l.getD (p + 1) 0 ≤ l.getD j 0 :=
        chain'_getD_le l hchain (p + 1) j hcase hj
      rw [List.getD_eq_get _ _ hj] at hle
      rw [hjv] at hle
      exact absurd (lt_of_lt_of_le h2 hle) (lt_irrefl _)
  · calc lower = l.getD 0 0 := hhead.symm
      _ ≤ l.getD p 0 := chain'_getD_le l hchain 0 p (by omega) (by omega)
      _ < v := h1
  · calc v < l.getD (p + 1) 0 := h2
      _ ≤ l.getD (l.length - 1) 0 :=
        chain'_getD_le l hchain (p + 1) (l.length - 1) (by omega) (by omega)
      _ = upper := hlast

theorem lejaInternal_inv (fmin : List ℚ → ℚ → ℚ → ℚ × ℚ)
    (lower mom1 upper : ℚ) (hfmin : FminInterior fmin)
    (h1 : lower < mom1) (h2 : mom1 < upper) (k : ℕ) :
    LejaInv lower upper (lejaInternal fmin lower mom1 upper k) := by
  induction k with
  | zero =>
    refine ⟨?_, [mom1], rfl⟩
    exact List.chain'_cons.mpr ⟨h1, List.chain'_cons.mpr ⟨h2, List.chain'_singleton _⟩⟩
  | succ k ih => exact lejaStep_inv fmin lower upper _ hfmin ih

theorem lejaStep_interior_mono (fmin : List ℚ → ℚ → ℚ → ℚ × ℚ)
    (lower upper : ℚ) (l : List ℚ)
    (hfmin : FminInterior fmin) (hInv : LejaInv lower upper l)
    (x : ℚ) (hx : x ∈ interiorNodes l) :
    x ∈ interiorNodes (lejaStep fmin l) := by
  obtain ⟨hxl, hlx, hxu⟩ := (lejaInv_interior_iff lower upper l hInv x).mp hx
  exact (lejaInv_interior_iff lower upper _
    (lejaStep_inv fmin lower upper l hfmin hInv) x).mpr
    ⟨lejaStep_mem fmin lower upper l hfmin hInv x hxl, hlx, hxu⟩

theorem mom1_mem_quad_leja_nodes (fmin : List ℚ → ℚ → ℚ → ℚ × ℚ)
    (lower mom1 upper : ℚ) (hfmin : FminInterior fmin)
    (h1 : lower < mom1) (h2 : mom1 < upper) (k : ℕ) :
    mom1 ∈ quad_leja_nodes fmin lower mom1 upper k := by
  induction k with
  | zero =>
    show mom1 ∈ interiorNodes [lower, mom1, upper]
    simp [interiorNodes]
  | succ k ih =>
    show mom1 ∈ interiorNodes (lejaStep fmin (lejaInternal fmin lower mom1 upper k))
    exact lejaStep_interior_mono fmin lower upper _ hfmin
      (lejaInternal_inv fmin lower mom1 upper hfmin h1 h2 k) mom1 ih

/-- Concrete bounded minimiser used in witnesses: always returns the
midpoint of the interval with objective value zero. -/
def midFmin : List ℚ → ℚ → ℚ → ℚ × ℚ := fun _ a b => ((a + b) / 2, 0)

theorem midFmin_interior : FminInterior midFmin := by
  intro ns a b h
  constructor
  · show a < (a + b) / 2
    linarith
  · show (a + b) / 2 < b
    linarith

/-- C1, counterexample to the claim as stated.  On the 1-D distribution
with support `[0, 1]` and first raw moment `1/2` (e.g. `Uniform(0, 1)`),
at target order `k = 0` the Leja node builder returns one node, not zero
nodes, and that node is exactly the first-raw-moment anchor, so an anchor
point does appear in the returned node set. -/
theorem quad_leja_nodes_claim_counterexample :
    (quad_leja_nodes midFmin 0 (1/2) 1 0).length ≠ 0 ∧
    (1/2 : ℚ) ∈ quad_leja_nodes midFmin 0 (1/2) 1 0 := by
  constructor
  · simp [quad_leja_nodes, lejaInternal, interiorNodes]
  · simp [quad_leja_nodes, lejaInternal, interiorNodes]

/-- C1 (amended): for every 1-D distribution (support bounds
`lower < mom1 < upper`) and every target order `k`, the Leja node builder
returns exactly `k + 1` interior nodes; the two boundary anchors (lower
and upper support bound) never appear in the returned node set, while the
first-raw-moment anchor always does. -/
theorem quad_leja_nodes_count_and_anchors
    (fmin : List ℚ → ℚ → ℚ → ℚ × ℚ) (lower mom1 upper : ℚ)
    (hfmin : FminInterior fmin) (h1 : lower < mom1) (h2 : mom1 < upper)
    (k : ℕ) :
    (quad_leja_nodes fmin lower mom1 upper k).length = k + 1 ∧
    lower ∉ quad_leja_nodes fmin lower mom1 upper k ∧
    upper ∉ quad_leja_nodes fmin lower mom1 upper k ∧
    mom1 ∈ quad_leja_nodes fmin lower mom1 upper k := by
  have hInv := lejaInternal_inv fmin lower mom1 upper hfmin h1 h2 k
  refine ⟨quad_leja_nodes_length fmin lower mom1 upper k, ?_, ?_, ?_⟩
  · intro hmem
    exact absurd ((lejaInv_interior_iff lower upper _ hInv lower).mp hmem).2.1
      (lt_irrefl _)
  · intro hmem
    exact absurd ((lejaInv_interior_iff lower upper _ hInv upper).mp hmem).2.2
      (lt_irrefl _)
  · exact mom1_mem_quad_leja_nodes fmin lower mom1 upper hfmin h1 h2 k

/-- C1, witness for the amended theorem at the concrete instance
`lower = 0`, `mom1 = 1/2`, `upper = 1`, order `2`, midpoint minimiser. -/
theorem quad_leja_nodes_count_and_anchors_witness :
    FminInterior midFmin ∧ (0 : ℚ) < 1/2 ∧ (1/2 : ℚ) < 1 ∧
    ((quad_leja_nodes midFmin 0 (1/2) 1 2).length = 2 + 1 ∧
     (0 : ℚ) ∉ quad_leja_nodes midFmin 0 (1/2) 1 2 ∧
     (1 : ℚ) ∉ quad_leja_nodes midFmin 0 (1/2) 1 2 ∧
     (1/2 : ℚ) ∈ quad_leja_nodes midFmin 0 (1/2) 1 2) :=
  ⟨midFmin_interior, by norm_num, by norm_num,
    quad_leja_nodes_count_and_anchors midFmin 0 (1/2) 1 midFmin_interior
      (by norm_num) (by norm_num) 2⟩

/-- C3: for every 1-D distribution (support bounds `lower < mom1 < upper`)
and every order `k`, the node set returned by the Leja builder at order
`k` is a strict subset of the node set returned at order `k + 1`. -/
theorem quad_leja_nodes_nested
    (fmin : List ℚ → ℚ → ℚ → ℚ × ℚ) (lower mom1 upper : ℚ)
    (hfmin : FminInterior fmin) (h1 : lower < mom1) (h2 : mom1 < upper)
    (k : ℕ) :
    (∀ x ∈ quad_leja_nodes fmin lower mom1 upper k,
      x ∈ quad_leja_nodes fmin lower mom1 upper (k + 1)) ∧
    ∃ y ∈ quad_leja_nodes fmin lower mom1 upper (k + 1),
      y ∉ quad_leja_nodes fmin lower mom1 upper k := by
  have hInv := lejaInternal_inv fmin lower mom1 upper hfmin h1 h2 k
  constructor
  · intro x hx
    show x ∈ interiorNodes (lejaStep fmin (lejaInternal fmin lower mom1 upper k))
    exact lejaStep_interior_mono fmin lower upper _ hfmin hInv x hx
  · obtain ⟨v, hvmem, hvnot, hlv, hvu⟩ :=
      lejaStep_new fmin lower upper _ hfmin hInv
    refine ⟨v, ?_, ?_⟩
    · show v ∈ interiorNodes (lejaStep fmin (lejaInternal fmin lower mom1 upper k))
      exact (lejaInv_interior_iff lower upper _
        (lejaStep_inv fmin lower upper _ hfmin hInv) v).mpr ⟨hvmem, hlv, hvu⟩
    · intro hvint
      exact hvnot ((lejaInv_interior_iff lower upper _ hInv v).mp hvint).1

/-- C3, witness at the concrete instance `lower = 0`, `mom1 = 1/2`,
`upper = 1`, order `1`, midpoint minimiser. -/
theorem quad_leja_nodes_nested_witness :
    FminInterior midFmin ∧ (0 : ℚ) < 1/2 ∧ (1/2 : ℚ) < 1 ∧
    ((∀ x ∈ quad_leja_nodes midFmin 0 (1/2) 1 1,
        x ∈ quad_leja_nodes midFmin 0 (1/2) 1 (1 + 1)) ∧
     ∃ y ∈ quad_leja_nodes midFmin 0 (1/2) 1 (1 + 1),
        y ∉ quad_leja_nodes midFmin 0 (1/2) 1 1) :=
  ⟨midFmin_interior, by norm_num, by norm_num,
    quad_leja_nodes_nested midFmin 0 (1/2) 1 midFmin_interior
      (by norm_num) (by norm_num) 1⟩

/-! ## Leja weight solver (`create_weights`, leja.py lines 95-105)

`create_weights` builds (via the external Stieltjes routines) the
orthogonal-polynomial basis of degrees `0 .. n-1`, evaluates it at the
`n` nodes giving the square matrix `poly(nodes)` with entry `(i, j)`
equal to the degree-`i` basis polynomial at node `j`, inverts it with
the external dense inverse (`numpy.linalg.inv`) and returns
`weights[:, 0]` — the first *column* of the inverse.  The basis matrix
and the inverse primitive are abstracted as parameters. -/

/-- `create_weights` tail: `weights = numpy.linalg.inv(poly(nodes));
return weights[:, 0]`, with `n + 1` nodes, `M = poly(nodes)` and `inv`
the external dense matrix inverse. -/
def create_weights (n : ℕ)
    (inv : Matrix (Fin (n + 1)) (Fin (n + 1)) ℚ → Matrix (Fin (n + 1)) (Fin (n + 1)) ℚ)
    (M : Matrix (Fin (n + 1)) (Fin (n + 1)) ℚ) : Fin (n + 1) → ℚ :=
  fun i => inv M i 0

/-- Modelled from the spec: "the weights are the matrix inverse's first
row" (spec §4.4); stated over the same basis-evaluation matrix as
`create_weights`, for comparison with the source definition. -/
def create_weights_spec_row (n : ℕ)
    (inv : Matrix (Fin (n + 1)) (Fin (n + 1)) ℚ → Matrix (Fin (n + 1)) (Fin (n + 1)) ℚ)
    (M : Matrix (Fin (n + 1)) (Fin (n + 1)) ℚ) : Fin (n + 1) → ℚ :=
  fun j => inv M 0 j

/-- A concrete basis-evaluation matrix: the degree-0 basis polynomial is
constantly 1, so its row is all ones; a degree-1 monic basis evaluated
at nodes 0 and 1 gives the second row. -/
def cexM : Matrix (Fin 2) (Fin 2) ℚ := !![1, 1; 0, 1]

/-- The exact inverse of `cexM`. -/
def cexMinv : Matrix (Fin 2) (Fin 2) ℚ := !![1, -1; 0, 1]

/-- C2, counterexample: for the two-node basis matrix `cexM` and its
exact inverse, the weights returned by `create_weights` (the first
column of the inverse) are not the first row of the inverse. -/
theorem create_weights_first_row_counterexample :
    cexM * cexMinv = 1 ∧ cexMinv * cexM = 1 ∧
    create_weights 1 (fun _ => cexMinv) cexM ≠
      create_weights_spec_row 1 (fun _ => cexMinv) cexM := by
  refine ⟨?_, ?_, ?_⟩
  · ext i j
    fin_cases i <;> fin_cases j <;>
      simp [cexM, cexMinv, Matrix.mul_apply, Fin.sum_univ_two, Matrix.one_apply]
  · ext i j
    fin_cases i <;> fin_cases j <;>
      simp [cexM, cexMinv, Matrix.mul_apply, Fin.sum_univ_two, Matrix.one_apply]
  · intro h
    have h1 := congrFun h 1
    simp [create_weights, create_weights_spec_row, cexMinv] at h1

/-- C2 (amended): `create_weights` evaluates the degree-`(n-1)` basis at
every node to form an `n`-by-`n` matrix, inverts it, and returns as
weights the first *column* of that matrix inverse; when the external
primitive returns the true inverse, these weights reproduce the basis
integrals: `M.mulVec w` is the first standard basis vector, i.e.
`sum_j p_i(node_j) * w_j = (if i = 0 then 1 else 0)`. -/
theorem create_weights_first_column (n : ℕ)
    (inv : Matrix (Fin (n + 1)) (Fin (n + 1)) ℚ → Matrix (Fin (n + 1)) (Fin (n + 1)) ℚ)
    (M : Matrix (Fin (n + 1)) (Fin (n + 1)) ℚ)
    (hinv : M * inv M = 1) :
    create_weights n inv M = (fun i => inv M i 0) ∧
    M.mulVec (create_weights n inv M) = (fun i => if i = 0 then 1 else 0) := by
  refine ⟨rfl, ?_⟩
  funext i
  have := congrFun (congrFun hinv i) 0
  rw [Matrix.mul_apply] at this
  simpa [Matrix.mulVec, Matrix.dotProduct, create_weights, Matrix.one_apply] using this

/-- C2, witness for the amended theorem at the concrete two-node basis
matrix `cexM` and its exact inverse. -/
theorem create_weights_first_column_witness :
    cexM * cexMinv = 1 ∧
    (create_weights 1 (fun _ => cexMinv) cexM = (fun i => cexMinv i 0) ∧
     cexM.mulVec (create_weights 1 (fun _ => cexMinv) cexM) =
       (fun i => if i = 0 then 1 else 0)) :=
  ⟨by ext i j; fin_cases i <;> fin_cases j <;>
      simp [cexM, cexMinv, Matrix.mul_apply, Fin.sum_univ_two, Matrix.one_apply],
   create_weights_first_column 1 (fun _ => cexMinv) cexM
     (by ext i j; fin_cases i <;> fin_cases j <;>
       simp [cexM, cexMinv, Matrix.mul_apply, Fin.sum_univ_two, Matrix.one_apply])⟩

/-! ## Gauss-Radau modification (`radau_jakobi`, gauss_radau.py lines 135-170)

`radau_jakobi` receives the recurrence coefficient array `coeffs` of
shape `(2, m+2)` (row 0 = alpha, row 1 = beta) and a scalar fixed point.
It builds the banded `(1,1)` system whose dense form is the symmetric
tridiagonal matrix of size `m+1` with main diagonal
`alpha[0..m] - fixed_point` and off-diagonals `sqrt(beta[1..m])`
(`bands_a = vstack([sqrt(coeffs[1]), coeffs[0]-fixed_point])`,
`bands_j = vstack((bands_a[:, 0:-1], bands_a[0, 1:]))`), with right-hand
side zero except for `beta[m+1]` in the last entry, solves it with the
external banded solver, and on success returns a copy of the
coefficients in which only the last alpha entry is replaced by
`fixed_point + delta[-1]`.  A singular solve raises
`numpy.linalg.LinAlgError("Illegal Radau fixed point: %s" % fixed_point.item())`.
The banded solver is abstracted as an `Option`-valued parameter. -/

/-- Three-term recurrence coefficients, the two rows of the `(2, n)`
coefficient array: row 0 = alpha, row 1 = beta. -/
structure RecCoeffs (n : ℕ) where
  alpha : Fin n → ℝ
  beta : Fin n → ℝ

/-- Symmetric tridiagonal matrix with main diagonal `d` and entry `e j`
at positions `(j-1, j)` and `(j, j-1)` (`e 0` is unused). -/
def triDiag (n : ℕ) (d e : Fin n → ℝ) : Matrix (Fin n) (Fin n) ℝ :=
  fun i j =>
    (if j = i then d i else 0) +
    (if (j : ℕ) = (i : ℕ) + 1 then e j else 0) +
    (if (i : ℕ) = (j : ℕ) + 1 then e i else 0)

theorem fin_sum_ite_val {n : ℕ} (k : ℕ) (f : Fin n → ℝ) :
    (∑ j : Fin n, if (j : ℕ) = k then f j else 0) =
      (if h : k < n then f ⟨k, h⟩ else 0) := by
  by_cases h : k < n
  · rw [dif_pos h]
    have heq : ∀ j : Fin n, ((j : ℕ) = k) = (j = ⟨k, h⟩) := by
      intro j
      apply propext
      exact ⟨fun hh => Fin.ext hh, fun hh => by rw [hh]⟩
    simp only [heq]
    rw [Finset.sum_ite_eq' Finset.univ (⟨k, h⟩ : Fin n) f]
    simp
  · rw [dif_neg h]
    apply Finset.sum_eq_zero
    intro j _
    rw [if_neg]
    have := j.isLt
    omega

theorem triDiag_mulVec (n : ℕ) (d e : Fin n → ℝ) (v : Fin n → ℝ) (i : Fin n) :
    (triDiag n d e).mulVec v i =
      d i * v i +
      (if h : (i : ℕ) + 1 < n then e ⟨(i : ℕ) + 1, h⟩ * v ⟨(i : ℕ) + 1, h⟩ else 0) +
      (if h : 0 < (i : ℕ) then e i * v ⟨(i : ℕ) - 1, by omega⟩ else 0) := by
  unfold Matrix.mulVec Matrix.dotProduct triDiag
  simp only [add_mul, ite_mul, zero_mul]
  rw [Finset.sum_add_distrib, Finset.sum_add_distrib]
  congr 1
  · congr 1
    · have heq : ∀ j : Fin n, (j = i) = (j = i) := fun _ => rfl
      rw [Finset.sum_ite_eq' Finset.univ i (fun j => d i * v j)]
      simp
    · rw [fin_sum_ite_val ((i : ℕ) + 1) (fun j => e j * v j)]
  · by_cases h : 0 < (i : ℕ)
    · rw [dif_pos h]
      have heq : ∀ j : Fin n, ((i : ℕ) = (j : ℕ) + 1) = ((j : ℕ) = (i : ℕ) - 1) := by
        intro j
        apply propext
        omega
      simp only [heq]
      rw [fin_sum_ite_val ((i : ℕ) - 1) (fun j => e i * v j)]
      rw [dif_pos (by omega : (i : ℕ) - 1 < n)]
    · rw [dif_neg h]
      apply Finset.sum_eq_zero
      intro j _
      rw [if_neg]
      omega

/-- Dense form of the banded system solved by `radau_jakobi`: symmetric
tridiagonal of size `m+1`, main diagonal `alpha[0..m] - fixed_point`,
off-diagonals `sqrt(beta[1..m])`. -/
noncomputable def radau_bands (m : ℕ) (c : RecCoeffs (m + 2)) (fp : ℝ) :
    Matrix (Fin (m + 1)) (Fin (m + 1)) ℝ :=
  triDiag (m + 1) (fun i => c.alpha i.castSucc - fp)
    (fun i => Real.sqrt (c.beta i.castSucc))

/-- `right_hand_side = numpy.zeros(len(coeffs[0])-1);
right_hand_side[-1] = coeffs[1][-1]`. -/
def radau_rhs (m : ℕ) (c : RecCoeffs (m + 2)) : Fin (m + 1) → ℝ :=
  fun i => if i = Fin.last m then c.beta (Fin.last (m + 1)) else 0

/-- The error raised when the banded solve is singular:
`numpy.linalg.LinAlgError("Illegal Radau fixed point: %s" % fixed_point.item())`;
the payload records the offending fixed-point value carried in the message. -/
inductive LinAlgError where
  | illegalFixedPoint (offending : ℝ)

/-- `radau_jakobi(coeffs, fixed_point)` with the external banded solver
abstracted as an `Option`-valued parameter: on success only the last
alpha entry of a copy of the coefficients is replaced by
`fixed_point + delta[-1]`; a singular solve becomes the illegal fixed
point error. -/
noncomputable def radau_jakobi (m : ℕ)
    (solve : Matrix (Fin (m + 1)) (Fin (m + 1)) ℝ → (Fin (m + 1) → ℝ) →
      Option (Fin (m + 1) → ℝ))
    (c : RecCoeffs (m + 2)) (fp : ℝ) : Except LinAlgError (RecCoeffs (m + 2)) :=
  match solve (radau_bands m c fp) (radau_rhs m c) with
  | none => .error (.illegalFixedPoint fp)
  | some delta =>
    .ok ⟨Function.update c.alpha (Fin.last (m + 1)) (fp + delta (Fin.last m)),
         c.beta⟩

/-- The Jacobi matrix of a coefficient array (spec §4.1 and glossary):
symmetric tridiagonal with diagonal `alpha` and off-diagonals
`sqrt(beta[1..])`; its eigenvalues are the quadrature abscissas computed
downstream by `coefficients_to_quadrature`. -/
noncomputable def jacobiMatrix (n : ℕ) (c : RecCoeffs n) :
    Matrix (Fin n) (Fin n) ℝ :=
  triDiag n c.alpha (fun j => Real.sqrt (c.beta j))

/-- Eigenvector exhibited for the Radau-modified Jacobi matrix: the
banded-solve correction `delta` extended by `-sqrt(beta[m+1])`. -/
def radauEigVec (m : ℕ) (delta : Fin (m + 1) → ℝ) (s : ℝ) : Fin (m + 2) → ℝ :=
  fun i => if h : (i : ℕ) < m + 1 then delta ⟨i, h⟩ else -s

theorem radauEigVec_lt (m : ℕ) (delta : Fin (m + 1) → ℝ) (s : ℝ)
    (k : ℕ) (hk : k < m + 2) (h : k < m + 1) :
    radauEigVec m delta s ⟨k, hk⟩ = delta ⟨k, h⟩ := dif_pos h

theorem radauEigVec_ge (m : ℕ) (delta : Fin (m + 1) → ℝ) (s : ℝ)
    (k : ℕ) (hk : k < m + 2) (h : ¬ k < m + 1) :
    radauEigVec m delta s ⟨k, hk⟩ = -s := dif_neg h

/-- C4: for every recurrence-coefficient array of length `m+2` and every
fixed point for which the banded solve succeeds (returning a solution
`delta` of the banded system), `radau_jakobi` returns coefficients of
the same length that equal the input in every entry except the final
alpha entry, which becomes `fixed_point + delta[-1]`; the input
coefficients are not modified (the embedding is a pure function of the
copied input).  Moreover, provided the final beta entry is positive
(the data-model invariant), the Jacobi matrix of the modified
coefficients has the fixed point as an exact eigenvalue — exhibited by
a nonzero eigenvector — so the Gauss-Radau abscissas, the eigenvalues
of that matrix, include the resolved fixed point. -/
theorem radau_jakobi_ok (m : ℕ)
    (solve : Matrix (Fin (m + 1)) (Fin (m + 1)) ℝ → (Fin (m + 1) → ℝ) →
      Option (Fin (m + 1) → ℝ))
    (c : RecCoeffs (m + 2)) (fp : ℝ) (delta : Fin (m + 1) → ℝ)
    (hsolve : solve (radau_bands m c fp) (radau_rhs m c) = some delta)
    (hdelta : (radau_bands m c fp).mulVec delta = radau_rhs m c)
    (hbeta : 0 < c.beta (Fin.last (m + 1))) :
    ∃ c', radau_jakobi m solve c fp = .ok c' ∧
      c'.beta = c.beta ∧
      (∀ i, i ≠ Fin.last (m + 1) → c'.alpha i = c.alpha i) ∧
      c'.alpha (Fin.last (m + 1)) = fp + delta (Fin.last m) ∧
      ∃ v : Fin (m + 2) → ℝ, v ≠ 0 ∧
        (jacobiMatrix (m + 2) c').mulVec v = fp • v := by
  refine ⟨⟨Function.update c.alpha (Fin.last (m + 1)) (fp + delta (Fin.last m)),
    c.beta⟩, ?_, rfl, ?_, ?_, ?_⟩
  · simp only [radau_jakobi, hsolve]
  · intro i hi
    exact Function.update_noteq hi _ _
  · exact Function.update_same _ _ _
  · refine ⟨radauEigVec m delta (Real.sqrt (c.beta (Fin.last (m + 1)))), ?_, ?_⟩
    · intro h0
      have h1 := congrFun h0 (Fin.last (m + 1))
      have h2 : radauEigVec m delta (Real.sqrt (c.beta (Fin.last (m + 1))))
          (Fin.last (m + 1)) = -Real.sqrt (c.beta (Fin.last (m + 1))) :=
        dif_neg (by simp)
      rw [h2] at h1
      have hspos : 0 < Real.sqrt (c.beta (Fin.last (m + 1))) :=
        Real.sqrt_pos.mpr hbeta
      simp only [Pi.zero_apply] at h1
      linarith
    · funext i
      obtain ⟨k, hk⟩ := i
      rw [jacobiMatrix, triDiag_mulVec]
      simp only [Pi.smul_apply, smul_eq_mul]
      rcases Nat.lt_or_ge k (m + 1) with hklt | hkge
      · -- rows 0 .. m of the modified Jacobi matrix
        have hne : (⟨k, hk⟩ : Fin (m + 2)) ≠ Fin.last (m + 1) := by
          simp only [ne_eq, Fin.ext_iff, Fin.val_last]
          omega
        have hd := congrFun hdelta ⟨k, hklt⟩
        rw [radau_bands, triDiag_mulVec] at hd
        simp only [Fin.castSucc_mk] at hd
        rw [Function.update_noteq hne]
        rw [radauEigVec_lt m delta _ k hk hklt]
        rcases Nat.lt_or_ge k m with hkm | hkm
        · -- k < m : interior row, rhs = 0
          have hrhs : radau_rhs m c ⟨k, hklt⟩ = 0 := by
            rw [radau_rhs, if_neg]
            simp only [ne_eq, Fin.ext_iff, Fin.val_last]
            omega
          rw [hrhs] at hd
          rw [dif_pos (by omega : k + 1 < m + 2)] at *
          rw [dif_pos (by omega : k + 1 < m + 1)] at hd
          rw [radauEigVec_lt m delta _ (k + 1) (by omega) (by omega)]
          by_cases hk0 : 0 < k
          · rw [dif_pos hk0] at hd ⊢
            rw [radauEigVec_lt m delta _ (k - 1) (by omega) (by omega)]
            linear_combination hd
          · rw [dif_neg hk0] at hd ⊢
            linear_combination hd
        · -- k = m : last row of the banded system
          have hkeq : m = k := by omega
          subst hkeq
          have hrhs : radau_rhs m c ⟨m, hklt⟩ = c.beta (Fin.last (m + 1)) := by
            rw [radau_rhs, if_pos]
            exact Fin.ext rfl
          rw [hrhs] at hd
          rw [dif_neg (by omega : ¬ m + 1 < m + 1)] at hd
          rw [dif_pos (by omega : m + 1 < m + 2)]
          rw [radauEigVec_ge m delta _ (m + 1) (by omega) (by omega)]
          have hsq : Real.sqrt (c.beta ⟨m + 1, by omega⟩) *
              Real.sqrt (c.beta (Fin.last (m + 1))) = c.beta (Fin.last (m + 1)) := by
            have hix : (⟨m + 1, by omega⟩ : Fin (m + 2)) = Fin.last (m + 1) :=
              Fin.ext rfl
            rw [hix]
            exact Real.mul_self_sqrt hbeta.le
          by_cases hk0 : 0 < m
          · rw [dif_pos hk0] at hd ⊢
            rw [radauEigVec_lt m delta _ (m - 1) (by omega) (by omega)]
            linear_combination hd - hsq
          · rw [dif_neg hk0] at hd ⊢
            linear_combination hd - hsq
      · -- the appended last row
        have hkeq : k = m + 1 := by omega
        subst hkeq
        have hlast : (⟨m + 1, hk⟩ : Fin (m + 2)) = Fin.last (m + 1) :=
          Fin.ext rfl
        have hupd : Function.update c.alpha (Fin.last (m + 1))
            (fp + delta (Fin.last m)) ⟨m + 1, hk⟩ = fp + delta (Fin.last m) := by
          rw [hlast]
          exact Function.update_same _ _ _
        rw [hupd]
        rw [radauEigVec_ge m delta _ (m + 1) hk (by omega)]
        rw [dif_neg (by omega : ¬ m + 1 + 1 < m + 2)]
        rw [dif_pos (by omega : 0 < m + 1)]
        simp only [Nat.add_sub_cancel]
        rw [radauEigVec_lt m delta _ m (by omega) (by omega)]
        have hdm : delta ⟨m, by omega⟩ = delta (Fin.last m) := by
          congr 1
        rw [hlast, hdm]
        ring

/-- Concrete coefficients for the Radau witnesses: alpha identically 0,
beta identically 1. -/
noncomputable def c4w : RecCoeffs 2 := ⟨fun _ => 0, fun _ => 1⟩

/-- A banded solver that answers the constant vector 1 (correct for the
witness system below). -/
noncomputable def solveW :
    Matrix (Fin 1) (Fin 1) ℝ → (Fin 1 → ℝ) → Option (Fin 1 → ℝ) :=
  fun _ _ => some (fun _ => 1)

/-- C4, witness at `m = 0`, coefficients `c4w`, fixed point `-1`,
correction `delta = 1`. -/
theorem radau_jakobi_ok_witness :
    (solveW (radau_bands 0 c4w (-1)) (radau_rhs 0 c4w) =
      some (fun _ => 1)) ∧
    ((radau_bands 0 c4w (-1)).mulVec (fun _ => 1) = radau_rhs 0 c4w) ∧
    (0 : ℝ) < c4w.beta (Fin.last 1) ∧
    (∃ c', radau_jakobi 0 solveW c4w (-1) = .ok c' ∧
      c'.beta = c4w.beta ∧
      (∀ i, i ≠ Fin.last 1 → c'.alpha i = c4w.alpha i) ∧
      c'.alpha (Fin.last 1) = -1 + (fun _ : Fin 1 => (1 : ℝ)) (Fin.last 0) ∧
      ∃ v : Fin 2 → ℝ, v ≠ 0 ∧
        (jacobiMatrix 2 c').mulVec v = (-1 : ℝ) • v) := by
  have hd : (radau_bands 0 c4w (-1)).mulVec (fun _ => (1 : ℝ)) =
      radau_rhs 0 c4w := by
    funext i
    have hi : i = 0 := Fin.ext (by have := i.isLt; omega)
    subst hi
    simp [radau_bands, radau_rhs, triDiag, Matrix.mulVec, Matrix.dotProduct,
      c4w, Fin.sum_univ_one]
  have hb : (0 : ℝ) < c4w.beta (Fin.last 1) := by
    simp [c4w]
  exact ⟨rfl, hd, hb,
    radau_jakobi_ok 0 solveW c4w (-1) (fun _ => 1) rfl hd hb⟩

/-- C6: for every fixed point on which the banded solve is singular
(the external solver returns no solution), `radau_jakobi` returns the
distinct illegal-fixed-point error carrying the offending fixed-point
value, and never a coefficient result — hence no quadrature rule. -/
theorem radau_jakobi_illegal_fixed_point (m : ℕ)
    (solve : Matrix (Fin (m + 1)) (Fin (m + 1)) ℝ → (Fin (m + 1) → ℝ) →
      Option (Fin (m + 1) → ℝ))
    (c : RecCoeffs (m + 2)) (fp : ℝ)
    (hsolve : solve (radau_bands m c fp) (radau_rhs m c) = none) :
    radau_jakobi m solve c fp = .error (.illegalFixedPoint fp) ∧
    ∀ c', radau_jakobi m solve c fp ≠ .ok c' := by
  constructor
  · simp only [radau_jakobi, hsolve]
  · intro c'
    simp only [radau_jakobi, hsolve]
    intro hok
    cases hok

/-- A banded solver that always reports a singular system. -/
noncomputable def solveNone :
    Matrix (Fin 1) (Fin 1) ℝ → (Fin 1 → ℝ) → Option (Fin 1 → ℝ) :=
  fun _ _ => none

/-- C6, witness at `m = 0`, coefficients `c4w`, fixed point `0`, with a
singular banded solve. -/
theorem radau_jakobi_illegal_fixed_point_witness :
    (solveNone (radau_bands 0 c4w 0) (radau_rhs 0 c4w) = none) ∧
    (radau_jakobi 0 solveNone c4w 0 =
        .error (.illegalFixedPoint 0) ∧
     ∀ c', radau_jakobi 0 solveNone c4w 0 ≠ .ok c') :=
  ⟨rfl, radau_jakobi_illegal_fixed_point 0 solveNone c4w 0 rfl⟩

/-! ## Tensor combination of per-dimension rules

Both multivariate generators finish with
`abscissas = combine(abscissas)` / `weights = numpy.prod(combine(weights), -1)`
(gauss_radau.py lines 129-130, leja.py lines 63-69).  `combine` itself
lives in `..combine`, outside the analysed sources, so it is modelled
from the spec. -/

/-- Modelled from the spec: the external TensorCombiner `combine`
(imported from `..combine`; its code is not among the analysed sources):
"Cartesian-products per-dimension node arrays", row-major with the first
dimension slowest, matching the documented examples. -/
def combine {α : Type} : List (List α) → List (List α)
  | [] => [[]]
  | xs :: rest => xs.flatMap fun x => (combine rest).map (x :: ·)

/-- `numpy.prod(combine(weights), -1)`: the product along the last axis,
one product per combined row. -/
def tensorWeights (ws : List (List ℝ)) : List ℝ :=
  (combine ws).map List.prod

/-- Row-major flat position of a multi-index, given the per-dimension
counts. -/
def flatIndex : List ℕ → List ℕ → ℕ
  | _, [] => 0
  | [], _ :: _ => 0
  | _ :: ns, i :: ix => i * ns.prod + flatIndex ns ix

/-- The per-dimension components selected by a multi-index. -/
def selectIdx {α : Type} (d : α) : List (List α) → List ℕ → List α
  | [], _ => []
  | _ :: _, [] => []
  | xs :: rest, i :: ix => xs.getD i d :: selectIdx d rest ix

theorem combine_length {α : Type} (xss : List (List α)) :
    (combine xss).length = (xss.map List.length).prod := by
  induction xss with
  | nil => rfl
  | cons xs rest ih =>
    simp only [combine, List.map_cons, List.prod_cons]
    rw [List.length_flatMap]
    simp only [Function.comp_def]
    have hmap : (xs.map fun x => ((combine rest).map (x :: ·)).length)
        = xs.map fun _ => (combine rest).length := by
      apply List.map_congr_left
      intro x _
      simp
    rw [hmap, List.map_const', List.sum_replicate, smul_eq_mul, ih]

theorem flatIndex_lt (ns ix : List ℕ)
    (h : List.Forall₂ (· < ·) ix ns) : flatIndex ns ix < ns.prod := by
  induction h with
  | nil => simp [flatIndex]
  | cons hab htail ih =>
    rename_i i n ix' ns'
    simp only [flatIndex, List.prod_cons]
    calc i * ns'.prod + flatIndex ns' ix'
        < i * ns'.prod + ns'.prod := by omega
      _ = (i + 1) * ns'.prod := by ring
      _ ≤ n * ns'.prod := Nat.mul_le_mul_right _ (by omega)

theorem flatMap_getD_uniform {α β : Type} (b₀ : β) (a₀ : α)
    (f : α → List β) (L : ℕ) (hL : ∀ x, (f x).length = L)
    (xs : List α) (i r : ℕ) (hi : i < xs.length) (hr : r < L) :
    (xs.flatMap f).getD (i * L + r) b₀ = (f (xs.getD i a₀)).getD r b₀ := by
  induction xs generalizing i with
  | nil => simp at hi
  | cons a t ih =>
    cases i with
    | zero =>
      simp only [List.flatMap_cons, Nat.zero_mul, Nat.zero_add,
        List.getD_cons_zero]
      exact List.getD_append _ _ _ _ (by rw [hL]; exact hr)
    | succ i =>
      simp only [List.flatMap_cons, List.getD_cons_succ]
      rw [List.getD_append_right _ _ _ _ (by rw [hL]; nlinarith)]
      rw [hL]
      have harith : (i + 1) * L + r - L = i * L + r := by ring_nf; omega
      rw [harith]
      exact ih i (by simpa using hi)

theorem combine_getD {α : Type} (a₀ : α) (xss : List (List α)) (ix : List ℕ)
    (hix : List.Forall₂ (· < ·) ix (xss.map List.length)) :
    (combine xss).getD (flatIndex (xss.map List.length) ix) [] =
      selectIdx a₀ xss ix := by
  induction xss generalizing ix with
  | nil =>
    have hnil : ix = [] := by cases hix; rfl
    subst hnil
    rfl
  | cons xs rest ih =>
    cases hix with
    | cons hlt htail =>
      rename_i i ix'
      simp only [combine, List.map_cons, flatIndex, selectIdx]
      have hL : ∀ x : α, ((combine rest).map (x :: ·)).length =
          (rest.map List.length).prod := by
        intro x
        simp [combine_length]
      have hr : flatIndex (rest.map List.length) ix' <
          (rest.map List.length).prod := flatIndex_lt _ _ htail
      rw [flatMap_getD_uniform [] a₀ _ ((rest.map List.length).prod) hL xs i _
        hlt hr]
      rw [List.getD_eq_getElem _ _ (by rw [hL]; exact hr)]
      rw [List.getElem_map]
      rw [← List.getD_eq_getElem (combine rest) []
        (by rw [combine_length]; exact hr)]
      rw [ih ix' htail]

/-- C9: for a multivariate rule built from independent per-dimension 1-D
rules, the combined rule has `N = prod(per-dimension counts)` nodes (and
as many weights), and the weight at the flat position of a multi-index
is the product of the per-dimension weight components selected by that
multi-index.  `combine`/`tensorWeights` are the tensor-combination steps
shared by `quad_gauss_radau` and `quad_leja`. -/
theorem tensor_rule_count_and_weights (nodess ws : List (List ℝ))
    (ix : List ℕ) (hix : List.Forall₂ (· < ·) ix (ws.map List.length)) :
    (combine nodess).length = (nodess.map List.length).prod ∧
    (tensorWeights ws).length = (ws.map List.length).prod ∧
    (tensorWeights ws).getD (flatIndex (ws.map List.length) ix) 0 =
      (selectIdx 0 ws ix).prod := by
  refine ⟨combine_length nodess, by simp [tensorWeights, combine_length], ?_⟩
  have hidx : flatIndex (ws.map List.length) ix < (combine ws).length := by
    rw [combine_length]
    exact flatIndex_lt _ _ hix
  rw [tensorWeights, List.getD_eq_getElem _ _ (by simpa using hidx),
    List.getElem_map, ← List.getD_eq_getElem (combine ws) [] hidx,
    combine_getD 0 ws ix hix]

/-- C9, witness at two dimensions with node lists `[1, 2]`, `[3]` and
weight lists `[1/2, 1/2]`, `[1/3, 2/3]`, multi-index `[1, 0]`. -/
theorem tensor_rule_count_and_weights_witness :
    List.Forall₂ (· < ·) [1, 0]
      (([[(1 : ℝ)/2, 1/2], [1/3, 2/3]]).map List.length) ∧
    ((combine [[(1 : ℝ), 2], [3]]).length =
        (([[(1 : ℝ), 2], [3]]).map List.length).prod ∧
     (tensorWeights [[(1 : ℝ)/2, 1/2], [1/3, 2/3]]).length =
        (([[(1 : ℝ)/2, 1/2], [1/3, 2/3]]).map List.length).prod ∧
     (tensorWeights [[(1 : ℝ)/2, 1/2], [1/3, 2/3]]).getD
        (flatIndex (([[(1 : ℝ)/2, 1/2], [1/3, 2/3]]).map List.length) [1, 0]) 0 =
        (selectIdx 0 [[(1 : ℝ)/2, 1/2], [1/3, 2/3]] [1, 0]).prod) := by
  have hix : List.Forall₂ (· < ·) [1, 0]
      (([[(1 : ℝ)/2, 1/2], [1/3, 2/3]]).map List.length) := by
    simp
  exact ⟨hix,
    tensor_rule_count_and_weights [[(1 : ℝ), 2], [3]]
      [[(1 : ℝ)/2, 1/2], [1/3, 2/3]] [1, 0] hix⟩

/-! ## Gauss-Radau weight positivity and normalisation (spec §4.2)

The conversion of modified coefficients to abscissas/weights happens in
`coefficients_to_quadrature` (module `..recurrence`), outside the
analysed sources; it is modelled from the spec: "weights from squared
first eigenvector components scaled by the zeroth moment", with the
eigendecomposition of the symmetric Jacobi matrix returning an
orthogonal eigenvector matrix. -/

/-- Modelled from the spec: the per-dimension Gauss(-Radau) weights
produced by `coefficients_to_quadrature` (not among the analysed
sources) — the squared first components of the `n+1` eigenvectors
(columns of `V`), scaled by the zeroth moment `m0`. -/
def eigWeights (n : ℕ) (m0 : ℝ)
    (V : Matrix (Fin (n + 1)) (Fin (n + 1)) ℝ) : List ℝ :=
  List.ofFn fun k => m0 * V 0 k ^ 2

theorem eigWeights_nonneg (n : ℕ) (m0 : ℝ)
    (V : Matrix (Fin (n + 1)) (Fin (n + 1)) ℝ) (hm0 : 0 ≤ m0) :
    ∀ x ∈ eigWeights n m0 V, 0 ≤ x := by
  intro x hx
  obtain ⟨k, hk⟩ := (List.mem_ofFn _ _).mp hx
  rw [← hk]
  positivity

theorem eigWeights_sum (n : ℕ) (m0 : ℝ)
    (V : Matrix (Fin (n + 1)) (Fin (n + 1)) ℝ)
    (hV : V * V.transpose = 1) (hm0 : m0 = 1) :
    (eigWeights n m0 V).sum = 1 := by
  rw [eigWeights, List.sum_ofFn, hm0]
  have h1 := congrFun (congrFun hV 0) 0
  rw [Matrix.mul_apply, Matrix.one_apply_eq] at h1
  calc (∑ k, 1 * V 0 k ^ 2) = ∑ k, V 0 k * V.transpose k 0 := by
        apply Finset.sum_congr rfl
        intro k _
        rw [Matrix.transpose_apply]
        ring
    _ = 1 := h1

theorem combine_mem_forall {α : Type} (xss : List (List α)) (row : List α)
    (hrow : row ∈ combine xss) :
    List.Forall₂ (fun v l => v ∈ l) row xss := by
  induction xss generalizing row with
  | nil =>
    simp only [combine, List.mem_singleton] at hrow
    subst hrow
    exact List.Forall₂.nil
  | cons xs rest ih =>
    simp only [combine, List.mem_flatMap, List.mem_map] at hrow
    obtain ⟨x, hx, r, hr, hcons⟩ := hrow
    subst hcons
    exact List.Forall₂.cons hx (ih r hr)

theorem tensorWeights_sum (ws : List (List ℝ)) :
    (tensorWeights ws).sum = (ws.map List.sum).prod := by
  induction ws with
  | nil => simp [tensorWeights, combine]
  | cons xs rest ih =>
    simp only [tensorWeights, combine, List.map_cons, List.prod_cons]
    rw [← ih, tensorWeights]
    induction xs with
    | nil => simp
    | cons a t iht =>
      simp only [List.flatMap_cons, List.map_append, List.sum_append,
        List.sum_cons, List.map_map]
      rw [iht]
      have hhead : ((combine rest).map (List.prod ∘ (a :: ·))).sum =
          a * ((combine rest).map List.prod).sum := by
        have : ((combine rest).map (List.prod ∘ (a :: ·))) =
            (combine rest).map fun r => a * r.prod := by
          apply List.map_congr_left
          intro r _
          simp [List.prod_cons]
        rw [this, List.sum_map_mul_left]
      rw [hhead]
      ring

theorem forall₂_mem_left {α β : Type} {R : α → β → Prop}
    {la : List α} {lb : List β}
    (h : List.Forall₂ R la lb) (v : α) (hv : v ∈ la) : ∃ b ∈ lb, R v b := by
  induction h with
  | nil => simp at hv
  | cons hR htail ih =>
    rcases List.mem_cons.mp hv with rfl | hvt
    · exact ⟨_, by simp, hR⟩
    · obtain ⟨b, hb, hRb⟩ := ih hvt
      exact ⟨b, by simp [hb], hRb⟩

theorem tensorWeights_nonneg (ws : List (List ℝ))
    (hws : ∀ w ∈ ws, ∀ x ∈ w, (0 : ℝ) ≤ x) :
    ∀ x ∈ tensorWeights ws, 0 ≤ x := by
  intro x hx
  simp only [tensorWeights, List.mem_map] at hx
  obtain ⟨row, hrow, hprod⟩ := hx
  subst hprod
  apply List.prod_nonneg
  intro v hv
  obtain ⟨w, hw, hvw⟩ :=
    forall₂_mem_left (combine_mem_forall ws row hrow) v hv
  exact hws w hw v hvw

/-- C5: whenever the Radau modification and the eigendecomposition
succeed — each per-dimension weight list arises as the squared first
components of an orthogonal eigenvector matrix scaled by the zeroth
moment 1 of a (normalised) probability distribution — the combined
weights of `quad_gauss_radau` (`numpy.prod(combine(weights), -1)`) are
all non-negative and sum to 1 within 1e-10 (exactly, in exact
arithmetic). -/
theorem quad_gauss_radau_weights_normalised (ws : List (List ℝ))
    (hws : ∀ w ∈ ws, ∃ n, ∃ V : Matrix (Fin (n + 1)) (Fin (n + 1)) ℝ,
      V * V.transpose = 1 ∧ w = eigWeights n 1 V) :
    (∀ x ∈ tensorWeights ws, 0 ≤ x) ∧
    |(tensorWeights ws).sum - 1| ≤ 1e-10 := by
  constructor
  · apply tensorWeights_nonneg
    intro w hw
    obtain ⟨n, V, hV, rfl⟩ := hws w hw
    exact eigWeights_nonneg n 1 V (by norm_num)
  · rw [tensorWeights_sum]
    have hone : ∀ s ∈ ws.map List.sum, s = 1 := by
      intro s hs
      obtain ⟨w, hw, rfl⟩ := List.mem_map.mp hs
      obtain ⟨n, V, hV, rfl⟩ := hws w hw
      exact eigWeights_sum n 1 V hV rfl
    rw [List.prod_eq_one hone]
    norm_num

/-- C5, witness in one dimension with the identity eigenvector matrix. -/
theorem quad_gauss_radau_weights_normalised_witness :
    (∀ w ∈ [eigWeights 0 1 (1 : Matrix (Fin 1) (Fin 1) ℝ)],
      ∃ n, ∃ V : Matrix (Fin (n + 1)) (Fin (n + 1)) ℝ,
        V * V.transpose = 1 ∧ w = eigWeights n 1 V) ∧
    ((∀ x ∈ tensorWeights [eigWeights 0 1 (1 : Matrix (Fin 1) (Fin 1) ℝ)],
        0 ≤ x) ∧
     |(tensorWeights [eigWeights 0 1 (1 : Matrix (Fin 1) (Fin 1) ℝ)]).sum - 1| ≤
        1e-10) := by
  have hws : ∀ w ∈ [eigWeights 0 1 (1 : Matrix (Fin 1) (Fin 1) ℝ)],
      ∃ n, ∃ V : Matrix (Fin (n + 1)) (Fin (n + 1)) ℝ,
        V * V.transpose = 1 ∧ w = eigWeights n 1 V := by
    intro w hw
    simp only [List.mem_singleton] at hw
    subst hw
    exact ⟨0, 1, by simp, rfl⟩
  exact ⟨hws, quad_gauss_radau_weights_normalised _ hws⟩

/-! ## `quad_gauss_radau` fixed-point resolution and order-0 branch
(gauss_radau.py lines 114-132) -/

/-- Fixed-point resolution: `fixed_point, _ = dist.range()` when omitted,
else `numpy.ones(len(dist)) * fixed_point` (a scalar broadcast to all
dimensions). -/
def resolveFixedPoint (D : ℕ) (lower : Fin D → ℝ) : Option ℝ → (Fin D → ℝ)
  | none => lower
  | some x => fun _ => x

/-- `quad_gauss_radau` with the `order > 0` pipeline (recurrence
provider, per-dimension Radau modification, eigen-conversion, tensor
combine) abstracted as the parameter `rest`:
`if order == 0: return fixed_point.reshape(-1, 1), numpy.ones(1)`.
The result is the per-dimension node lists together with the weights. -/
def quad_gauss_radau (D : ℕ) (lower : Fin D → ℝ) (order : ℕ)
    (fp : Option ℝ)
    (rest : (Fin D → ℝ) → ℕ → (Fin D → List ℝ) × List ℝ) :
    (Fin D → List ℝ) × List ℝ :=
  let fixed_point := resolveFixedPoint D lower fp
  if order = 0 then (fun d => [fixed_point d], [1]) else rest fixed_point order

/-- C8: for every distribution (lower support bounds `lower`) and every
fixed-point argument, `quad_gauss_radau` at order 0 returns exactly one
node per dimension, equal to the resolved fixed point (the caller's
scalar broadcast to all dimensions, or the lower support bound when
omitted), with the single weight 1.0 — and the result does not depend on
the recurrence/modification pipeline `rest`, which is therefore not
invoked. -/
theorem quad_gauss_radau_order_zero (D : ℕ) (lower : Fin D → ℝ)
    (fp : Option ℝ)
    (rest rest' : (Fin D → ℝ) → ℕ → (Fin D → List ℝ) × List ℝ) :
    quad_gauss_radau D lower 0 fp rest =
      (fun d => [resolveFixedPoint D lower fp d], [1]) ∧
    (∀ d, (quad_gauss_radau D lower 0 fp rest).1 d =
      [resolveFixedPoint D lower fp d]) ∧
    (quad_gauss_radau D lower 0 fp rest).2 = [1] ∧
    quad_gauss_radau D lower 0 fp rest = quad_gauss_radau D lower 0 fp rest' :=
  ⟨rfl, fun _ => rfl, rfl, rfl⟩

/-! ## Multivariate `quad_leja` (leja.py lines 54-69)

```
if len(dist) > 1:
    if evaluation.get_dependencies(*list(dist)):
        raise evaluation.DependencyError(...)
    if isinstance(order, int):
        out = [quad_leja(order, _) for _ in dist]
    else:
        out = [quad_leja(order[_], dist[_]) for _ in range(len(dist))]
    ...combine...
```
The dependency test is the external `evaluation.get_dependencies`,
modelled as a boolean; the recursive 1-D calls are abstracted as the
parameter `build1`.  The Python `order` argument is modelled by its
relevant type cases: an exact Python `int`, an indexable sequence
(list/array), or a non-`int` integer scalar (e.g. `numpy.int64`), which
fails `isinstance(order, int)` and is then not indexable — `order[_]`
raises. -/

/-- The Python-level `order` argument of `quad_leja`. -/
inductive PyOrder where
  | pyInt (n : ℕ)
  | seqOf (f : ℕ → ℕ)
  | npInt (n : ℕ)

/-- `order[i]` for a non-`int` order: sequences index positionally, a
numpy integer scalar raises. -/
def pyOrderGetitem : PyOrder → ℕ → Option ℕ
  | .seqOf f, i => some (f i)
  | _, _ => none

/-- Errors surfaced by multivariate `quad_leja`. -/
inductive LejaError where
  | dependencyError
  | indexError

/-- Sequential evaluation of a Python list comprehension whose element
expression may raise: the first failure aborts the whole list. -/
def mapOpt {α β : Type} (g : α → Option β) : List α → Option (List β)
  | [] => some []
  | a :: t => (g a).bind fun b => (mapOpt g t).map (b :: ·)

/-- The `len(dist) > 1` branch of `quad_leja`: dependency check, order
dispatch via `isinstance(order, int)`, per-dimension recursion
(`build1 order_d d`), tensor combination of the per-dimension nodes and
weights. -/
def quad_leja_multi (D : ℕ) (deps : Bool)
    (build1 : ℕ → Fin D → List ℝ × List ℝ) (order : PyOrder) :
    Except LejaError (List (List ℝ) × List ℝ) :=
  if deps then .error .dependencyError
  else
    match order with
    | .pyInt n =>
      let out := (List.finRange D).map fun (d : Fin D) => build1 n d
      .ok (combine (out.map Prod.fst), tensorWeights (out.map Prod.snd))
    | ord =>
      match mapOpt
          (fun (d : Fin D) =>
            (pyOrderGetitem ord (d : ℕ)).map fun o => build1 o d)
          (List.finRange D) with
      | none => .error .indexError
      | some out =>
        .ok (combine (out.map Prod.fst), tensorWeights (out.map Prod.snd))

theorem mapOpt_some {α β : Type} (l : List α) (g : α → β) :
    mapOpt (fun a => some (g a)) l = some (l.map g) := by
  induction l with
  | nil => rfl
  | cons a t ih => simp [mapOpt, ih]

theorem mapOpt_none_of_ne_nil {α β : Type} (l : List α) (hl : l ≠ []) :
    mapOpt (fun _ => (none : Option β)) l = none := by
  cases l with
  | nil => exact absurd rfl hl
  | cons a t => simp [mapOpt]

/-- C7: for every multivariate call (`D > 1`) whose dependency check
reports a dependency, `quad_leja` fails with the dependency-specific
error, independently of the per-dimension node builder and weight
solver (`build1`), which are therefore never invoked; no partial result
is returned. -/
theorem quad_leja_multi_dependency (D : ℕ) (hD : 1 < D)
    (build1 build1' : ℕ → Fin D → List ℝ × List ℝ) (order : PyOrder) :
    quad_leja_multi D true build1 order = .error .dependencyError ∧
    (∀ r, quad_leja_multi D true build1 order ≠ .ok r) ∧
    quad_leja_multi D true build1 order =
      quad_leja_multi D true build1' order := by
  refine ⟨rfl, ?_, rfl⟩
  intro r h
  cases h

/-- Trivial one-dimensional builder used in witnesses. -/
noncomputable def qlBuild (D : ℕ) : ℕ → Fin D → List ℝ × List ℝ :=
  fun _ _ => ([0], [1])

/-- C7, witness at `D = 2` with trivial builders and integer order 3. -/
theorem quad_leja_multi_dependency_witness :
    1 < 2 ∧
    (quad_leja_multi 2 true (qlBuild 2) (.pyInt 3) =
        .error .dependencyError ∧
     (∀ r, quad_leja_multi 2 true (qlBuild 2) (.pyInt 3) ≠ .ok r) ∧
     quad_leja_multi 2 true (qlBuild 2) (.pyInt 3) =
       quad_leja_multi 2 true (fun _ _ => ([42], [7])) (.pyInt 3)) :=
  ⟨by norm_num,
    quad_leja_multi_dependency 2 (by norm_num) (qlBuild 2)
      (fun _ _ => ([42], [7])) (.pyInt 3)⟩

/-- C10: in a multivariate call without dependencies, a single order is
broadcast to all dimensions exactly when `order` is a Python `int`; any
other order value — an indexable sequence, or a non-`int` integer
scalar such as `numpy.int64` — is sent to the indexing branch, which
uses `order[i]` for dimension `i` (and hence fails on a non-indexable
integer scalar rather than broadcasting it). -/
theorem quad_leja_order_dispatch (D : ℕ) (hD : 1 < D)
    (build1 : ℕ → Fin D → List ℝ × List ℝ) (n : ℕ) (f : ℕ → ℕ) (k : ℕ) :
    (quad_leja_multi D false build1 (.pyInt n) =
      .ok (combine
          (((List.finRange D).map fun (d : Fin D) => build1 n d).map Prod.fst),
        tensorWeights
          (((List.finRange D).map fun (d : Fin D) => build1 n d).map
            Prod.snd))) ∧
    (quad_leja_multi D false build1 (.seqOf f) =
      .ok (combine
          (((List.finRange D).map fun (d : Fin D) =>
            build1 (f (d : ℕ)) d).map Prod.fst),
        tensorWeights
          (((List.finRange D).map fun (d : Fin D) =>
            build1 (f (d : ℕ)) d).map Prod.snd))) ∧
    quad_leja_multi D false build1 (.npInt k) = .error .indexError := by
  refine ⟨rfl, ?_, ?_⟩
  · have hm : mapOpt
        (fun (d : Fin D) =>
          (pyOrderGetitem (.seqOf f) (d : ℕ)).map fun o => build1 o d)
        (List.finRange D) =
        some ((List.finRange D).map fun (d : Fin D) => build1 (f (d : ℕ)) d) :=
      mapOpt_some _ _
    simp only [quad_leja_multi, hm, Bool.false_eq_true, if_false]
  · have hm : mapOpt
        (fun (d : Fin D) =>
          (pyOrderGetitem (.npInt k) (d : ℕ)).map fun o => build1 o d)
        (List.finRange D) =
        none := by
      apply mapOpt_none_of_ne_nil
      intro hnil
      have := congrArg List.length hnil
      simp at this
      omega
    simp only [quad_leja_multi, hm, Bool.false_eq_true, if_false]

/-- C10, witness at `D = 2` with a trivial builder, Python-int order 3,
sequence order constantly 5, and numpy-scalar order 3. -/
theorem quad_leja_order_dispatch_witness :
    1 < 2 ∧
    ((quad_leja_multi 2 false (qlBuild 2) (.pyInt 3) =
      .ok (combine
          (((List.finRange 2).map fun (d : Fin 2) => qlBuild 2 3 d).map
            Prod.fst),
        tensorWeights
          (((List.finRange 2).map fun (d : Fin 2) => qlBuild 2 3 d).map
            Prod.snd))) ∧
    (quad_leja_multi 2 false (qlBuild 2) (.seqOf fun _ => 5) =
      .ok (combine
          (((List.finRange 2).map fun (d : Fin 2) =>
            qlBuild 2 ((fun _ => 5) (d : ℕ)) d).map Prod.fst),
        tensorWeights
          (((List.finRange 2).map fun (d : Fin 2) =>
            qlBuild 2 ((fun _ => 5) (d : ℕ)) d).map Prod.snd))) ∧
    quad_leja_multi 2 false (qlBuild 2) (.npInt 3) = .error .indexError) :=
  ⟨by norm_num,
    quad_leja_order_dispatch 2 (by norm_num) (qlBuild 2) 3 (fun _ => 5) 3⟩
